import Mathlib

/-!
# Verification of the ebiten documentation generator (`_docs/gen.go`)

A shallow embedding of the pure logic of `_docs/gen.go`: stable-version
selection, the HTML comment sanitizer, the example catalog with its derived
dimensions and source transform, the per-path decision of `clear`, and the
fail-fast sequencing of `main`.

Go strings are modelled as lists of characters.  Every byte-level operation
of the source that is embedded here (`HasPrefix`, `HasSuffix`, slicing,
`strings.Replace`, `strings.Split`) uses ASCII patterns only, and the regular
expressions of the source work on code points, so on UTF-8 text the two views
coincide.
-/

set_option autoImplicit false

namespace Gen

/-- A Go `string`. -/
abbrev GoString := List Char

/-! ## `comment` -/

/-- First loop of `comment`:
`for strings.HasPrefix(text, ">") { text = text[1:] }`. -/
def stripLeadingGT : GoString → GoString
  | [] => []
  | c :: t => if c = '>' then stripLeadingGT t else c :: t

/-- Second loop of `comment`:
`for strings.HasPrefix(text, "->") { text = text[2:] }`. -/
def stripLeadingArrow : GoString → GoString
  | c :: d :: t => if c = '-' ∧ d = '>' then stripLeadingArrow t else c :: d :: t
  | t => t

/-- The call `strings.Replace(text, "--", "", -1)`: the non-overlapping
occurrences of `--` are removed, scanning from the left. -/
def removeDashDash : GoString → GoString
  | [] => []
  | [c] => [c]
  | c :: d :: t =>
    if c = '-' ∧ d = '-' then removeDashDash t else c :: removeDashDash (d :: t)

/-- Third loop of `comment`, run on the reversed text:
`strings.HasSuffix(text, "-")` looks at the head of the reversal and
`text[:len(text)-1]` drops it. -/
def dropDashes : GoString → GoString
  | [] => []
  | c :: t => if c = '-' then dropDashes t else c :: t

/-- Third loop of `comment`:
`for strings.HasSuffix(text, "-") { text = text[:len(text)-1] }`. -/
def stripTrailingDash (text : GoString) : GoString :=
  (dropDashes text.reverse).reverse

/-- The value of the local variable `text` of `comment` at its `return`. -/
def commentBody (text : GoString) : GoString :=
  stripTrailingDash (removeDashDash (stripLeadingArrow (stripLeadingGT text)))

/-- The opening wrapper written by `comment`. -/
def commentOpen : GoString := ['<', '!', '-', '-', '\n']

/-- The closing wrapper written by `comment`. -/
def commentClose : GoString := ['\n', '-', '-', '>']

/-- The function `comment`: `template.HTML("<!--\n" + text + "\n-->")`. -/
def comment (text : GoString) : GoString :=
  commentOpen ++ commentBody text ++ commentClose

/-! ## Stable-version selection (second `init`) -/

/-- The call `regexp.MustCompile("^v(\d.+)$").FindStringSubmatch(tag)`, giving
`m[1]` when there is a match.  Without flags `^` and `$` are the two ends of
the text, `\d` is an ASCII digit and `.` is any character but a newline, so a
match is the letter `v`, one digit, and one or more further characters none of
which is a newline; the group captures everything after the `v`. -/
def matchTag : GoString → Option GoString
  | c :: d :: x :: rest =>
    if c = 'v' ∧ d.isDigit = true ∧ (x :: rest).all (fun y => y != '\n') = true then
      some (d :: x :: rest)
    else none
  | _ => none

/-- The call `strings.Split(s, "\n")`. -/
def splitNewline : GoString → List GoString
  | [] => [[]]
  | c :: t =>
    if c = '\n' then [] :: splitNewline t
    else
      match splitNewline t with
      | [] => [[c]]
      | h :: r => (c :: h) :: r

/-- The two variables `lastStableVersion` and `lastCommitTime` of `init`. -/
structure StableState where
  lastStableVersion : GoString
  lastCommitTime : Int
deriving DecidableEq

/-- One iteration of the `for _, tag := range ...` loop of `init`.  The
argument `gitLog` stands for `git log tag -1 --format=%ct` followed by
`strings.TrimSpace` and `strconv.Atoi`; an error is a `panic`. -/
def initLoopBody (gitLog : GoString → Except String Int) (st : StableState)
    (tag : GoString) : Except String StableState :=
  match matchTag tag with
  | none => .ok st
  | some m1 =>
    match gitLog tag with
    | .error err => .error err
    | .ok tt => if st.lastCommitTime ≥ tt then .ok st else .ok ⟨m1, tt⟩

/-- The `for _, tag := range ...` loop of `init`. -/
def initLoop (gitLog : GoString → Except String Int) :
    StableState → List GoString → Except String StableState
  | st, [] => .ok st
  | st, tag :: rest =>
    match initLoopBody gitLog st tag with
    | .error err => .error err
    | .ok st1 => initLoop gitLog st1 rest

/-- The second `init` function: the value stored in `stableVersion`, or the
error it panics with.  The argument `gitTag` is the result of
`exec.Command("git", "tag").Output()`. -/
def initStableVersion (gitTag : Except String GoString)
    (gitLog : GoString → Except String Int) : Except String GoString :=
  match gitTag with
  | .error err => .error err
  | .ok b =>
    match initLoop gitLog ⟨[], 0⟩ (splitNewline b) with
    | .error err => .error err
    | .ok st => .ok st.lastStableVersion

/-! ## The example catalog -/

/-- The struct `example`. -/
structure Example where
  Name : GoString
  ThumbWidth : Int
  ThumbHeight : Int
  ScreenWidth : Int := 0
  ScreenHeight : Int := 0
deriving DecidableEq

/-- Width in bits of the Go type `int` (a 64-bit platform). -/
def intBits : Nat := 64

/-- Reduction of a mathematical integer to the two's complement range of `int`. -/
def wrapInt (x : Int) : Int :=
  (x + 2 ^ (intBits - 1)) % 2 ^ intBits - 2 ^ (intBits - 1)

/-- Go multiplication on `int`. -/
def mulInt (x y : Int) : Int := wrapInt (x * y)

/-- The method `example.Width`. -/
def Example.Width (e : Example) : Int :=
  if e.ScreenWidth = 0 then mulInt e.ThumbWidth 2 else e.ScreenWidth

/-- The method `example.Height`. -/
def Example.Height (e : Example) : Int :=
  if e.ScreenHeight = 0 then mulInt e.ThumbHeight 2 else e.ScreenHeight

/-- The constant `commentFor2048` of `Source`. -/
def commentFor2048 : GoString :=
  "// Please read examples/2048/main.go and examples/2048/2048/*.go".toList

/-- The constant `commentForBlocks` of `Source`. -/
def commentForBlocks : GoString :=
  ("// Please read examples/blocks/main.go and examples/blocks/blocks/*.go\n" ++
   "// NOTE: If Gamepad API is available in your browswer, you can use gamepads. Try it out!").toList

/-- The text after the leftmost occurrence of a blank line (`"\n\n"`), if any. -/
def afterBlankLine : GoString → Option GoString
  | [] => none
  | [_] => none
  | c :: d :: t => if c = '\n' ∧ d = '\n' then some t else afterBlankLine (d :: t)

/-- The call `regexp.MustCompile("(?s)^.*?\n\n").ReplaceAllString(s, "")`.
With the flag `s` the dot matches newlines too, `^` is the start of the text
and `.*?` is lazy, so the only possible match starts at offset 0 and ends with
the leftmost `"\n\n"`; it is replaced by the empty string.  When there is no
match the text comes back unchanged. -/
def stripHeader (s : GoString) : GoString :=
  match afterBlankLine s with
  | some r => r
  | none => s

/-- The replacement text of `strings.Replace(str, "\t", "        ", -1)`. -/
def eightSpaces : GoString := [' ', ' ', ' ', ' ', ' ', ' ', ' ', ' ']

/-- The call `strings.Replace(str, "\t", "        ", -1)`. -/
def expandTabs : GoString → GoString
  | [] => []
  | c :: t => if c = '\t' then eightSpaces ++ expandTabs t else c :: expandTabs t

/-- The method `example.Source`.  The argument `readFile` is the result of
`ioutil.ReadFile(path)`; an error is a `panic`. -/
def Example.Source (e : Example) (readFile : Except String GoString) :
    Except String GoString :=
  if e.Name = "2048".toList then .ok commentFor2048
  else if e.Name = "blocks".toList then .ok commentForBlocks
  else
    match readFile with
    | .error err => .error err
    | .ok b => .ok (expandTabs (stripHeader b))

/-- Catalog entry with the two `Screen` fields left at their zero value. -/
def ex (name : String) (w h : Int) : Example := ⟨name.toList, w, h, 0, 0⟩

/-- The variable `gamesExamples`. -/
def gamesExamples : List Example :=
  [ex "2048" 210 300, ex "blocks" 256 240]

/-- The variable `graphicsExamples`. -/
def graphicsExamples : List Example :=
  [ex "alphablending" 320 240, ex "flood" 320 240, ex "font" 320 240,
   ex "highdpi" 320 240, ex "hsv" 320 240, ex "hue" 320 240,
   ex "infinitescroll" 320 240, ex "life" 320 240,
   ⟨"mandelbrot".toList, 320, 320, 640, 640⟩,
   ex "masking" 320 240, ex "mosaic" 320 240, ex "noise" 320 240,
   ex "paint" 320 240, ex "perspective" 320 240, ex "rotate" 320 240,
   ex "sprites" 320 240, ex "tiles" 240 240]

/-- The variable `inputExamples`. -/
def inputExamples : List Example :=
  [ex "gamepad" 320 240, ex "keyboard" 320 240, ex "typewriter" 320 240]

/-- The variable `audioExamples`. -/
def audioExamples : List Example :=
  [ex "audio" 320 240, ex "piano" 320 240, ex "sinewave" 320 240]

/-! ## `clear` -/

/-- The call `regexp.MatchString("~$", path)`: the path ends with `~`. -/
def matchTilde (path : GoString) : Bool :=
  match path.reverse with
  | c :: _ => c = '~'
  | [] => false

/-- The call `regexp.MatchString(".html$", path)`.  The dot is not escaped: it
stands for any character but a newline, so the path ends with such a character
followed by `html`. -/
def matchHtml (path : GoString) : Bool :=
  match path.reverse with
  | l :: m :: t :: h :: c :: _ =>
    c != '\n' && h = 'h' && t = 't' && m = 'm' && l = 'l'
  | _ => false

/-- The call `regexp.MatchString("^public/examples/_resources/images$", path)`. -/
def matchImages (path : GoString) : Bool :=
  path = "public/examples/_resources/images".toList

/-- What the function passed to `filepath.Walk` does with one visited path. -/
inductive Visit where
  /-- The walk handed in an error, which is returned: `return err`. -/
  | propagate (err : String)
  /-- The path is left as it is: `return nil`. -/
  | untouched
  /-- The path is removed as one entry: `return os.Remove(path)`. -/
  | remove
  /-- The path is removed with its subtree, which the walk then skips:
  `os.RemoveAll(path)` followed by `return filepath.SkipDir`. -/
  | removeAllSkipDir
deriving DecidableEq

/-- The function literal that `clear` passes to `filepath.Walk`. -/
def clearWalkFn (path : GoString) (err : Option String) : Visit :=
  match err with
  | some e => .propagate e
  | none =>
    if matchTilde path then .untouched
    else if matchHtml path then .remove
    else if matchImages path then .removeAllSkipDir
    else .untouched

/-! ## `main` -/

/-- The steps of a build whose failure ends it. -/
inductive Step where
  /-- The call `clear()`. -/
  | Clear
  /-- The call `outputMain()`. -/
  | RenderHome
  /-- The call `createExamplesDir()`. -/
  | ResetExamplesDir
  /-- The call `outputExampleResources()`. -/
  | CopyResources
  /-- File creation and template execution in `outputExampleContent(&e)`. -/
  | RenderContent (e : Example)
  /-- The `gopherjs build` call in `outputExampleContent(&e)`. -/
  | Build (e : Example)
  /-- The call `outputExample(&e)`. -/
  | RenderFullPage (e : Example)
deriving DecidableEq

/-- How a build ends. -/
inductive Outcome where
  /-- The function `main` returns. -/
  | Done
  /-- The call `log.Fatal(err)`. -/
  | Aborted (err : String)
deriving DecidableEq

/-- Attempt one step: it is appended to the log of attempted steps and its
outcome (`none` for a `nil` error) is returned. -/
def attempt (oc : Step → Option String) (s : Step) (log : List Step) :
    List Step × Option String :=
  (log ++ [s], oc s)

/-- The function `outputExampleContent`: the content fragment is rendered and,
unless that fails, the example is compiled. -/
def outputExampleContent (oc : Step → Option String) (e : Example)
    (log : List Step) : List Step × Option String :=
  match attempt oc (.RenderContent e) log with
  | (log1, some err) => (log1, some err)
  | (log1, none) => attempt oc (.Build e) log1

/-- The function `outputExample`. -/
def outputExample (oc : Step → Option String) (e : Example)
    (log : List Step) : List Step × Option String :=
  attempt oc (.RenderFullPage e) log

/-- The loop `for _, e := range examples` of `main`. -/
def mainLoop (oc : Step → Option String) :
    List Example → List Step → List Step × Outcome
  | [], log => (log, .Done)
  | e :: rest, log =>
    match outputExampleContent oc e log with
    | (log1, some err) => (log1, .Aborted err)
    | (log1, none) =>
      match outputExample oc e log1 with
      | (log2, some err) => (log2, .Aborted err)
      | (log2, none) => mainLoop oc rest log2

/-- The slice `examples` built by `main`. -/
def examples : List Example :=
  graphicsExamples ++ inputExamples ++ audioExamples ++ gamesExamples

/-- The function `main`: the steps attempted, in order, and how the build ends. -/
def main (oc : Step → Option String) : List Step × Outcome :=
  match attempt oc .Clear [] with
  | (log1, some err) => (log1, .Aborted err)
  | (log1, none) =>
    match attempt oc .RenderHome log1 with
    | (log2, some err) => (log2, .Aborted err)
    | (log2, none) =>
      match attempt oc .ResetExamplesDir log2 with
      | (log3, some err) => (log3, .Aborted err)
      | (log3, none) =>
        match attempt oc .CopyResources log3 with
        | (log4, some err) => (log4, .Aborted err)
        | (log4, none) => mainLoop oc examples log4

/-! ## Definitions that follow the specification -/

/-- The three steps of one example, as the specification lists them. -/
def exampleSteps (e : Example) : List Step :=
  [.RenderContent e, .Build e, .RenderFullPage e]

/-- The sequence of steps of a build, as the specification lists it. -/
def buildSequence : List Step :=
  [.Clear, .RenderHome, .ResetExamplesDir, .CopyResources] ++
    (graphicsExamples ++ inputExamples ++ audioExamples ++ gamesExamples).flatMap
      exampleSteps

/-- Fail-fast run of a sequence of steps, as the specification describes it:
the steps are attempted in order up to and including the first one that fails. -/
def failFast (oc : Step → Option String) : List Step → List Step × Outcome
  | [] => ([], .Done)
  | s :: rest =>
    match oc s with
    | some err => ([s], .Aborted err)
    | none => (s :: (failFast oc rest).1, (failFast oc rest).2)

/-! ## Concrete inputs -/

/-- Commit times of the tags `v1.0`, `v2.0` and `v0.9`; any other revision is
unknown to `git log`. -/
def sampleGitLog (tag : GoString) : Except String Int :=
  if tag = "v1.0".toList then .ok 100
  else if tag = "v2.0".toList then .ok 200
  else if tag = "v0.9".toList then .ok 50
  else .error "unknown revision"

/-- Commit times of the tags `v1.0`, `v2.0` and `v0.9` as a total function. -/
def sampleTime (tag : GoString) : Int :=
  if tag = "v1.0".toList then 100
  else if tag = "v2.0".toList then 200
  else if tag = "v0.9".toList then 50
  else 0

/-- Step outcomes of a build in which compiling the example `flood` fails. -/
def floodBuildFails (s : Step) : Option String :=
  if s = .Build (ex "flood" 320 240) then some "exit status 1" else none


/-! ## Properties of `comment` -/

theorem stripLeadingGT_sublist (s : GoString) : List.Sublist (stripLeadingGT s) s := by
  induction s with
  | nil => simp [stripLeadingGT]
  | cons c t ih =>
    by_cases h : c = '>'
    · simpa [stripLeadingGT, h] using ih.trans (List.sublist_cons_self _ _)
    · simp [stripLeadingGT, h]

theorem stripLeadingGT_filter (s : GoString) :
    (stripLeadingGT s).filter (fun c => c != '-' && c != '>') =
      s.filter (fun c => c != '-' && c != '>') := by
  induction s with
  | nil => simp [stripLeadingGT]
  | cons c t ih =>
    by_cases h : c = '>'
    · simp [stripLeadingGT, h, ih]
    · simp [stripLeadingGT, h]

theorem stripLeadingArrow_sublist (s : GoString) : List.Sublist (stripLeadingArrow s) s := by
  induction s using stripLeadingArrow.induct with
  | case1 c d t h ih =>
    simpa [stripLeadingArrow, h] using
      (ih.trans (List.sublist_cons_self _ _)).trans (List.sublist_cons_self _ _)
  | case2 c d t h => simp [stripLeadingArrow, h]
  | case3 t h =>
    unfold stripLeadingArrow
    split
    · exact absurd rfl (h _ _ _)
    · exact List.Sublist.refl _

theorem stripLeadingArrow_filter (s : GoString) :
    (stripLeadingArrow s).filter (fun c => c != '-' && c != '>') =
      s.filter (fun c => c != '-' && c != '>') := by
  induction s using stripLeadingArrow.induct with
  | case1 c d t h ih =>
    obtain ⟨hc, hd⟩ := h
    subst hc hd
    simp [stripLeadingArrow, ih]
  | case2 c d t h => simp [stripLeadingArrow, h]
  | case3 t h =>
    unfold stripLeadingArrow
    split
    · exact absurd rfl (h _ _ _)
    · rfl

theorem removeDashDash_sublist (s : GoString) : List.Sublist (removeDashDash s) s := by
  induction s using removeDashDash.induct with
  | case1 => simp [removeDashDash]
  | case2 c => simp [removeDashDash]
  | case3 c d t h ih =>
    simpa [removeDashDash, h] using
      (ih.trans (List.sublist_cons_self _ _)).trans (List.sublist_cons_self _ _)
  | case4 c d t h ih =>
    simpa [removeDashDash, h] using ih

theorem removeDashDash_filter (s : GoString) :
    (removeDashDash s).filter (fun c => c != '-' && c != '>') =
      s.filter (fun c => c != '-' && c != '>') := by
  induction s using removeDashDash.induct with
  | case1 => simp [removeDashDash]
  | case2 c => simp [removeDashDash]
  | case3 c d t h ih =>
    obtain ⟨hc, hd⟩ := h
    subst hc hd
    simp [removeDashDash, ih]
  | case4 c d t h ih =>
    simp only [removeDashDash, h, if_false, List.filter_cons, ih]

theorem dropDashes_suffix (s : GoString) : dropDashes s <:+ s := by
  induction s with
  | nil => simp [dropDashes]
  | cons c t ih =>
    by_cases h : c = '-'
    · simpa [dropDashes, h] using ih.trans (List.suffix_cons _ _)
    · simp [dropDashes, h]

theorem dropDashes_filter (s : GoString) :
    (dropDashes s).filter (fun c => c != '-' && c != '>') =
      s.filter (fun c => c != '-' && c != '>') := by
  induction s with
  | nil => simp [dropDashes]
  | cons c t ih =>
    by_cases h : c = '-'
    · simp [dropDashes, h, ih]
    · simp [dropDashes, h]

theorem stripTrailingDash_initial (s : GoString) : stripTrailingDash s <+: s := by
  have h := dropDashes_suffix s.reverse
  have h2 := List.reverse_prefix.mpr h
  simpa [stripTrailingDash] using h2

theorem stripTrailingDash_filter (s : GoString) :
    (stripTrailingDash s).filter (fun c => c != '-' && c != '>') =
      s.filter (fun c => c != '-' && c != '>') := by
  have h := congrArg List.reverse (dropDashes_filter s.reverse)
  simpa [stripTrailingDash, List.filter_reverse] using h

theorem commentBody_sublist (text : GoString) : List.Sublist (commentBody text) text :=
  ((((stripTrailingDash_initial _).sublist).trans (removeDashDash_sublist _)).trans
    (stripLeadingArrow_sublist _)).trans (stripLeadingGT_sublist _)

theorem commentBody_filter (text : GoString) :
    (commentBody text).filter (fun c => c != '-' && c != '>') =
      text.filter (fun c => c != '-' && c != '>') := by
  unfold commentBody
  rw [stripTrailingDash_filter, removeDashDash_filter, stripLeadingArrow_filter,
    stripLeadingGT_filter]

theorem removeDashDash_cons_of_ne (d : Char) (t : GoString) (h : d ≠ '-') :
    removeDashDash (d :: t) = d :: removeDashDash t := by
  cases t with
  | nil => simp [removeDashDash]
  | cons x t => simp [removeDashDash, h]

theorem dashDash_initial_cons (c : Char) (l : GoString) :
    ['-', '-'] <+: c :: l ↔ c = '-' ∧ ∃ t, l = '-' :: t := by
  constructor
  · rintro ⟨t, ht⟩
    simp only [List.cons_append, List.nil_append, List.cons.injEq] at ht
    exact ⟨ht.1.symm, t, ht.2.symm⟩
  · rintro ⟨rfl, t, rfl⟩
    exact ⟨t, rfl⟩

theorem removeDashDash_no_dashDash (s : GoString) :
    ¬ ['-', '-'] <:+: removeDashDash s := by
  induction s using removeDashDash.induct with
  | case1 => simp [removeDashDash]
  | case2 c =>
    intro h
    have := h.length_le
    simp [removeDashDash] at this
  | case3 c d t h ih => simpa [removeDashDash, h] using ih
  | case4 c d t h ih =>
    simp only [removeDashDash, h, if_false]
    rw [List.infix_cons_iff]
    rintro (hp | hi)
    · rw [dashDash_initial_cons] at hp
      obtain ⟨hc, u, hu⟩ := hp
      have hd : d ≠ '-' := fun hd => h ⟨hc, hd⟩
      rw [removeDashDash_cons_of_ne d t hd] at hu
      exact hd (List.cons.inj hu).1
    · exact ih hi

theorem commentBody_no_dashDash (text : GoString) :
    ¬ ['-', '-'] <:+: commentBody text := fun h =>
  removeDashDash_no_dashDash _ (h.trans (stripTrailingDash_initial _).isInfix)

/-! ## Properties of the stable-version selection -/

theorem initLoopBody_skip (gitLog : GoString → Except String Int) (st : StableState)
    (tag : GoString) (h : matchTag tag = none) :
    initLoopBody gitLog st tag = .ok st := by
  simp [initLoopBody, h]

theorem initLoopBody_keep (gitLog : GoString → Except String Int) (st : StableState)
    (tag m : GoString) (t : Int) (h : matchTag tag = some m) (hg : gitLog tag = .ok t)
    (hle : t ≤ st.lastCommitTime) :
    initLoopBody gitLog st tag = .ok st := by
  simp [initLoopBody, h, hg, hle]

theorem initLoopBody_take (gitLog : GoString → Except String Int) (st : StableState)
    (tag m : GoString) (t : Int) (h : matchTag tag = some m) (hg : gitLog tag = .ok t)
    (hlt : st.lastCommitTime < t) :
    initLoopBody gitLog st tag = .ok ⟨m, t⟩ := by
  simp [initLoopBody, h, hg, not_le.mpr hlt]

theorem initLoop_unchanged (gitLog : GoString → Except String Int) (ts : GoString → Int)
    (l : List GoString) (st : StableState)
    (h : ∀ tag ∈ l, (matchTag tag).isSome →
      gitLog tag = .ok (ts tag) ∧ ts tag ≤ st.lastCommitTime) :
    initLoop gitLog st l = .ok st := by
  induction l with
  | nil => rfl
  | cons x l ih =>
    have hx := h x (List.mem_cons_self _ _)
    have hl : ∀ tag ∈ l, (matchTag tag).isSome →
        gitLog tag = .ok (ts tag) ∧ ts tag ≤ st.lastCommitTime :=
      fun tag ht => h tag (List.mem_cons_of_mem _ ht)
    cases hm : matchTag x with
    | none => simp [initLoop, initLoopBody_skip gitLog st x hm, ih hl]
    | some m =>
      have hx2 := hx (by simp [hm])
      simp [initLoop, initLoopBody_keep gitLog st x m (ts x) hm hx2.1 hx2.2, ih hl]

theorem initLoop_select (gitLog : GoString → Except String Int) (ts : GoString → Int)
    (pre : List GoString) (tag : GoString) (post : List GoString) (m : GoString)
    (st : StableState) (hm : matchTag tag = some m) (hg : gitLog tag = .ok (ts tag))
    (hst : st.lastCommitTime < ts tag)
    (hpre : ∀ x ∈ pre, (matchTag x).isSome → gitLog x = .ok (ts x) ∧ ts x < ts tag)
    (hpost : ∀ x ∈ post, (matchTag x).isSome → gitLog x = .ok (ts x) ∧ ts x ≤ ts tag) :
    initLoop gitLog st (pre ++ tag :: post) = .ok ⟨m, ts tag⟩ := by
  induction pre generalizing st with
  | nil =>
    have hpost2 : ∀ x ∈ post, (matchTag x).isSome →
        gitLog x = .ok (ts x) ∧ ts x ≤ (StableState.mk m (ts tag)).lastCommitTime := hpost
    simp [initLoop, initLoopBody_take gitLog st tag m (ts tag) hm hg hst,
      initLoop_unchanged gitLog ts post ⟨m, ts tag⟩ hpost2]
  | cons x pre ih =>
    have hx := hpre x (List.mem_cons_self _ _)
    have hpre2 : ∀ y ∈ pre, (matchTag y).isSome → gitLog y = .ok (ts y) ∧ ts y < ts tag :=
      fun y hy => hpre y (List.mem_cons_of_mem _ hy)
    cases hmx : matchTag x with
    | none =>
      simp [initLoop, initLoopBody_skip gitLog st x hmx, ih st hst hpre2]
    | some mx =>
      have hx2 := hx (by simp [hmx])
      by_cases hle : ts x ≤ st.lastCommitTime
      · simp [initLoop, initLoopBody_keep gitLog st x mx (ts x) hmx hx2.1 hle,
          ih st hst hpre2]
      · have hlt : st.lastCommitTime < ts x := not_le.mp hle
        simp [initLoop, initLoopBody_take gitLog st x mx (ts x) hmx hx2.1 hlt,
          ih ⟨mx, ts x⟩ hx2.2 hpre2]

theorem initLoop_ok (gitLog : GoString → Except String Int) (ts : GoString → Int)
    (l : List GoString) (st : StableState)
    (h : ∀ tag ∈ l, (matchTag tag).isSome → gitLog tag = .ok (ts tag)) :
    ∃ st1, initLoop gitLog st l = .ok st1 := by
  induction l generalizing st with
  | nil => exact ⟨st, rfl⟩
  | cons x l ih =>
    have hl : ∀ tag ∈ l, (matchTag tag).isSome → gitLog tag = .ok (ts tag) :=
      fun tag ht => h tag (List.mem_cons_of_mem _ ht)
    cases hm : matchTag x with
    | none => simpa [initLoop, initLoopBody_skip gitLog st x hm] using ih st hl
    | some m =>
      have hx := h x (List.mem_cons_self _ _) (by simp [hm])
      by_cases hle : ts x ≤ st.lastCommitTime
      · simpa [initLoop, initLoopBody_keep gitLog st x m (ts x) hm hx hle] using ih st hl
      · have hlt : st.lastCommitTime < ts x := not_le.mp hle
        simpa [initLoop, initLoopBody_take gitLog st x m (ts x) hm hx hlt] using
          ih ⟨m, ts x⟩ hl

theorem matchTag_some (tag m : GoString) (h : matchTag tag = some m) : tag = 'v' :: m := by
  unfold matchTag at h
  split at h
  · split at h
    · rename_i hc
      simp only [Option.some.injEq] at h
      rw [← h, hc.1]
    · exact absurd h (by simp)
  · exact absurd h (by simp)

/-! ## Properties of `main` -/

theorem mainLoop_eq_failFast (oc : Step → Option String) (es : List Example)
    (log : List Step) :
    mainLoop oc es log =
      (log ++ (failFast oc (es.flatMap exampleSteps)).1,
        (failFast oc (es.flatMap exampleSteps)).2) := by
  induction es generalizing log with
  | nil => simp [mainLoop, failFast]
  | cons e rest ih =>
    simp only [List.flatMap_cons, exampleSteps, List.cons_append, List.nil_append]
    cases h1 : oc (.RenderContent e) with
    | some err => simp [mainLoop, outputExampleContent, attempt, failFast, h1]
    | none =>
      cases h2 : oc (.Build e) with
      | some err => simp [mainLoop, outputExampleContent, attempt, failFast, h1, h2]
      | none =>
        cases h3 : oc (.RenderFullPage e) with
        | some err =>
          simp [mainLoop, outputExampleContent, outputExample, attempt, failFast, h1, h2, h3]
        | none =>
          simp [mainLoop, outputExampleContent, outputExample, attempt, failFast, h1, h2, h3,
            ih, exampleSteps]

theorem main_eq_failFast (oc : Step → Option String) :
    main oc = failFast oc buildSequence := by
  unfold main buildSequence examples
  generalize graphicsExamples ++ inputExamples ++ audioExamples ++ gamesExamples = es
  simp only [attempt, List.nil_append, List.cons_append]
  cases h1 : oc .Clear with
  | some err => simp [failFast, h1]
  | none =>
    cases h2 : oc .RenderHome with
    | some err => simp [failFast, h1, h2]
    | none =>
      cases h3 : oc .ResetExamplesDir with
      | some err => simp [failFast, h1, h2, h3]
      | none =>
        cases h4 : oc .CopyResources with
        | some err => simp [failFast, h1, h2, h3, h4]
        | none => simp [failFast, h1, h2, h3, h4, mainLoop_eq_failFast]

theorem failFast_all_ok (oc : Step → Option String) (l : List Step)
    (h : ∀ s ∈ l, oc s = none) : failFast oc l = (l, .Done) := by
  induction l with
  | nil => rfl
  | cons s rest ih =>
    have hs := h s (List.mem_cons_self _ _)
    have hr := ih (fun x hx => h x (List.mem_cons_of_mem _ hx))
    simp [failFast, hs, hr]

theorem failFast_first_error (oc : Step → Option String) (pre : List Step) (s : Step)
    (post : List Step) (err : String) (hpre : ∀ x ∈ pre, oc x = none)
    (hs : oc s = some err) :
    failFast oc (pre ++ s :: post) = (pre ++ [s], .Aborted err) := by
  induction pre with
  | nil => simp [failFast, hs]
  | cons x pre ih =>
    have hx := hpre x (List.mem_cons_self _ _)
    have hr := ih (fun y hy => hpre y (List.mem_cons_of_mem _ hy))
    simp [failFast, hx, hr]

theorem failFast_attempted_initial (oc : Step → Option String) (l : List Step) :
    (failFast oc l).1 <+: l := by
  induction l with
  | nil => simp [failFast]
  | cons s rest ih =>
    cases hs : oc s with
    | some err =>
      simp only [failFast, hs]
      exact ⟨rest, rfl⟩
    | none =>
      simp only [failFast, hs]
      exact (List.prefix_cons_inj s).mpr ih

theorem buildSequence_nodup : buildSequence.Nodup := by decide

/-! ## Properties of `Source` -/

theorem afterBlankLine_none (s : GoString) (h : ¬ ['\n', '\n'] <:+: s) :
    afterBlankLine s = none := by
  induction s using afterBlankLine.induct with
  | case1 => rfl
  | case2 c => rfl
  | case3 c d t hc =>
    obtain ⟨h1, h2⟩ := hc
    subst h1 h2
    exact absurd ⟨[], t, rfl⟩ h
  | case4 c d t hc ih =>
    simp only [afterBlankLine, hc, if_false]
    exact ih (fun hi => h (hi.trans (List.suffix_cons c (d :: t)).isInfix))

theorem afterBlankLine_first (p r : GoString) (h : ¬ ['\n', '\n'] <:+: p ++ ['\n']) :
    afterBlankLine (p ++ '\n' :: '\n' :: r) = some r := by
  induction p with
  | nil => simp [afterBlankLine]
  | cons c p ih =>
    have hp : ¬ ['\n', '\n'] <:+: p ++ ['\n'] :=
      fun hi => h (hi.trans (List.suffix_cons c (p ++ ['\n'])).isInfix)
    cases p with
    | nil =>
      have hc : c ≠ '\n' := by
        rintro rfl
        exact h ⟨[], [], rfl⟩
      simp [afterBlankLine, hc]
    | cons d p =>
      have hcd : ¬ (c = '\n' ∧ d = '\n') := by
        rintro ⟨rfl, rfl⟩
        exact h ⟨[], p ++ ['\n'], by simp⟩
      have := ih hp
      simp only [List.cons_append] at this ⊢
      simp only [afterBlankLine, hcd, if_false]
      exact this

theorem expandTabs_eq_flatMap (s : GoString) :
    expandTabs s = s.flatMap (fun c => if c = '\t' then eightSpaces else [c]) := by
  induction s with
  | nil => rfl
  | cons c t ih =>
    by_cases h : c = '\t'
    · simp [expandTabs, h, ih]
    · simp [expandTabs, h, ih]

/-! ## Properties of the derived dimensions -/

theorem mulInt_exact (x y : Int) (hlo : -(2 ^ 63) ≤ x * y) (hhi : x * y < 2 ^ 63) :
    mulInt x y = x * y := by
  unfold mulInt wrapInt intBits
  have h : (x * y + 2 ^ (64 - 1)) % 2 ^ 64 = x * y + 2 ^ (64 - 1) := by
    apply Int.emod_eq_of_lt
    · norm_num; linarith
    · norm_num; linarith
  rw [h]; ring

/-! ## The claims -/

/-- C1: for a tag listing whose matching tags all have a positive commit time,
the second `init` ends without an error; it stores the empty string when no
tag matches, and otherwise stores the capture of the first tag, in listing
order, among the matching tags with the greatest commit time; that capture is
the tag without its leading `v`. -/
theorem stableVersion_first_latest (b : GoString)
    (gitLog : GoString → Except String Int) (ts : GoString → Int)
    (hts : ∀ tag ∈ splitNewline b, (matchTag tag).isSome →
      gitLog tag = .ok (ts tag) ∧ 0 < ts tag) :
    (∃ v, initStableVersion (.ok b) gitLog = .ok v) ∧
    ((∀ tag ∈ splitNewline b, matchTag tag = none) →
        initStableVersion (.ok b) gitLog = .ok []) ∧
    (∀ (pre : List GoString) (tag : GoString) (post : List GoString) (m : GoString),
      splitNewline b = pre ++ tag :: post → matchTag tag = some m →
      (∀ x ∈ pre, (matchTag x).isSome → ts x < ts tag) →
      (∀ x ∈ post, (matchTag x).isSome → ts x ≤ ts tag) →
      initStableVersion (.ok b) gitLog = .ok m ∧ tag = 'v' :: m) := by
  refine ⟨?_, ?_, ?_⟩
  · obtain ⟨st1, h1⟩ := initLoop_ok gitLog ts (splitNewline b) ⟨[], 0⟩
      (fun tag ht hs => (hts tag ht hs).1)
    exact ⟨st1.lastStableVersion, by simp [initStableVersion, h1]⟩
  · intro hnone
    have h : ∀ tag ∈ splitNewline b, (matchTag tag).isSome →
        gitLog tag = .ok (ts tag) ∧ ts tag ≤ (StableState.mk [] 0).lastCommitTime := by
      intro tag htag hsome
      simp [hnone tag htag] at hsome
    simp [initStableVersion, initLoop_unchanged gitLog ts _ _ h]
  · intro pre tag post m hsplit hm hpre hpost
    have hmem : ∀ x, x ∈ pre ∨ x = tag ∨ x ∈ post → x ∈ splitNewline b := by
      intro x hx
      rw [hsplit]
      simpa using hx
    have htag := hts tag (hmem tag (Or.inr (Or.inl rfl))) (by simp [hm])
    have hpre2 : ∀ x ∈ pre, (matchTag x).isSome →
        gitLog x = .ok (ts x) ∧ ts x < ts tag :=
      fun x hx hs => ⟨(hts x (hmem x (Or.inl hx)) hs).1, hpre x hx hs⟩
    have hpost2 : ∀ x ∈ post, (matchTag x).isSome →
        gitLog x = .ok (ts x) ∧ ts x ≤ ts tag :=
      fun x hx hs => ⟨(hts x (hmem x (Or.inr (Or.inr hx))) hs).1, hpost x hx hs⟩
    have hsel := initLoop_select gitLog ts pre tag post m ⟨[], 0⟩ hm htag.1 htag.2 hpre2 hpost2
    refine ⟨?_, matchTag_some tag m hm⟩
    simp [initStableVersion, hsplit, hsel]

/-- C1, on the tags `v1.0` (100), `v2.0` (200) and `v0.9` (50): the stored
version is `2.0`. -/
theorem stableVersion_first_latest_witness :
    (∀ tag ∈ splitNewline "v1.0\nv2.0\nv0.9\n".toList, (matchTag tag).isSome →
      sampleGitLog tag = .ok (sampleTime tag) ∧ 0 < sampleTime tag) ∧
    initStableVersion (.ok "v1.0\nv2.0\nv0.9\n".toList) sampleGitLog = .ok "2.0".toList :=
  have h : ∀ tag ∈ splitNewline "v1.0\nv2.0\nv0.9\n".toList, (matchTag tag).isSome →
      sampleGitLog tag = .ok (sampleTime tag) ∧ 0 < sampleTime tag := by
    simp [splitNewline, matchTag, sampleGitLog, sampleTime]
  ⟨h, ((stableVersion_first_latest "v1.0\nv2.0\nv0.9\n".toList sampleGitLog sampleTime h).2.2
    ["v1.0".toList] "v2.0".toList ["v0.9".toList, []] "2.0".toList
    (by decide) (by decide) (by decide) (by decide)).1⟩

/-- C2: the text that `comment` places between `<!--\n` and `\n-->` never
contains `--`; the text `>>->hello--world-` becomes `helloworld`. -/
theorem comment_no_double_dash (text : GoString) :
    comment text = commentOpen ++ commentBody text ++ commentClose ∧
    ¬ ['-', '-'] <:+: commentBody text ∧
    commentBody ">>->hello--world-".toList = "helloworld".toList ∧
    comment ">>->hello--world-".toList = "<!--\nhelloworld\n-->".toList :=
  ⟨rfl, commentBody_no_dashDash text, by decide, by decide⟩

/-- C2, on the text `a---b--`, which becomes `a-b`. -/
theorem comment_no_double_dash_witness :
    commentBody "a---b--".toList = "a-b".toList ∧
    ¬ ['-', '-'] <:+: commentBody "a---b--".toList :=
  ⟨by decide, (comment_no_double_dash "a---b--".toList).2.1⟩

/-- C3 fails on the code: for the text `->>` the text that `comment` places
between the wrappers is `>`, and for `--->x` it is `->x`. -/
theorem comment_leading_gt_survives :
    commentBody "->>".toList = ">".toList ∧
    comment "->>".toList = "<!--\n>\n-->".toList ∧
    commentBody "--->x".toList = "->x".toList := by
  decide

/-- C4 fails on the code: the tags `vfoo` and `v1` are the letter `v` followed
by a non-empty remainder, and neither is kept. -/
theorem matchTag_rejects_v_remainder :
    "foo".toList ≠ [] ∧ matchTag ('v' :: "foo".toList) = none ∧
    "1".toList ≠ [] ∧ matchTag ('v' :: "1".toList) = none := by
  decide

/-- C4, amended: a tag is kept exactly when it is the letter `v` followed by
an ASCII digit and one or more further characters, none of them a newline; the
capture is everything after the `v`. -/
theorem matchTag_grammar (tag m : GoString) :
    matchTag tag = some m ↔
      ∃ d x rest, tag = 'v' :: d :: x :: rest ∧ m = d :: x :: rest ∧
        d.isDigit = true ∧ ∀ y ∈ x :: rest, y ≠ '\n' := by
  constructor
  · intro h
    have htag := matchTag_some tag m h
    subst htag
    match m, h with
    | [], h => simp [matchTag] at h
    | [_], h => simp [matchTag] at h
    | d :: x :: rest, h =>
      refine ⟨d, x, rest, rfl, rfl, ?_⟩
      have hc : 'v' = 'v' ∧ d.isDigit = true ∧
          (x :: rest).all (fun y => y != '\n') = true := by
        by_contra hn
        rw [matchTag, if_neg hn] at h
        exact absurd h (by simp)
      refine ⟨hc.2.1, ?_⟩
      intro y hy
      have := List.all_eq_true.mp hc.2.2 y hy
      simpa using this
  · rintro ⟨d, x, rest, rfl, rfl, hd, hnl⟩
    have hall : (x :: rest).all (fun y => y != '\n') = true := by
      rw [List.all_eq_true]
      intro y hy
      simpa using hnl y hy
    rw [matchTag, if_pos ⟨rfl, hd, hall⟩]

/-- C4, amended, on the tag `v1.0`, kept with the capture `1.0`. -/
theorem matchTag_grammar_witness :
    matchTag "v1.0".toList = some "1.0".toList :=
  (matchTag_grammar "v1.0".toList "1.0".toList).mpr
    ⟨'1', '.', ['0'], by decide, by decide, by decide, by decide⟩

/-- What `clear` does with a visited path: a path that ends with `~` is left
as it is; otherwise a path that ends with `html` after one more character
other than a newline is removed; otherwise the images directory is removed with
its subtree and skipped; any other path is left as it is. -/
theorem clearWalkFn_decision (path : GoString) :
    (['~'] <:+ path → clearWalkFn path none = .untouched) ∧
    (¬ ['~'] <:+ path → (∃ c, c ≠ '\n' ∧ [c, 'h', 't', 'm', 'l'] <:+ path) →
      clearWalkFn path none = .remove) ∧
    (¬ ['~'] <:+ path → ¬ (∃ c, c ≠ '\n' ∧ [c, 'h', 't', 'm', 'l'] <:+ path) →
      path = "public/examples/_resources/images".toList →
      clearWalkFn path none = .removeAllSkipDir) ∧
    (¬ ['~'] <:+ path → ¬ (∃ c, c ≠ '\n' ∧ [c, 'h', 't', 'm', 'l'] <:+ path) →
      path ≠ "public/examples/_resources/images".toList →
      clearWalkFn path none = .untouched) := by
  have ht : matchTilde path = true ↔ ['~'] <:+ path := by
    rw [← List.reverse_prefix]
    unfold matchTilde
    cases path.reverse with
    | nil => simp
    | cons c r =>
      simp only [List.reverse_cons, List.reverse_nil, List.nil_append, decide_eq_true_eq]
      constructor
      · rintro rfl
        exact ⟨r, rfl⟩
      · rintro ⟨u, hu⟩
        exact ((List.cons.inj hu).1).symm
  have hh : matchHtml path = true ↔ ∃ c, c ≠ '\n' ∧ [c, 'h', 't', 'm', 'l'] <:+ path := by
    have hrev : ∀ c : Char, [c, 'h', 't', 'm', 'l'] <:+ path ↔
        ['l', 'm', 't', 'h', c] <+: path.reverse := by
      intro c
      rw [← List.reverse_prefix]
      simp
    simp only [hrev]
    unfold matchHtml
    match path.reverse with
    | [] => simp
    | [_] => simp [List.prefix_cons_iff]
    | [_, _] => simp [List.prefix_cons_iff]
    | [_, _, _] => simp [List.prefix_cons_iff]
    | [_, _, _, _] => simp [List.prefix_cons_iff]
    | l :: m :: t :: h :: c :: r =>
      simp only [Bool.and_eq_true, bne_iff_ne, ne_eq, decide_eq_true_eq]
      constructor
      · rintro ⟨⟨⟨⟨hc, rfl⟩, rfl⟩, rfl⟩, rfl⟩
        exact ⟨c, hc, r, rfl⟩
      · rintro ⟨c2, hc2, u, hu⟩
        simp only [List.cons_append, List.nil_append, List.cons.injEq] at hu
        obtain ⟨h1, h2, h3, h4, h5, _⟩ := hu
        subst h1 h2 h3 h4 h5
        exact ⟨⟨⟨⟨hc2, rfl⟩, rfl⟩, rfl⟩, rfl⟩
  refine ⟨?_, ?_, ?_, ?_⟩
  · intro h
    simp [clearWalkFn, ht.mpr h]
  · intro h1 h2
    have h1b : matchTilde path = false := by
      cases hb : matchTilde path with
      | false => rfl
      | true => exact absurd (ht.mp hb) h1
    simp [clearWalkFn, h1b, hh.mpr h2]
  · intro h1 h2 h3
    have h1b : matchTilde path = false := by
      cases hb : matchTilde path with
      | false => rfl
      | true => exact absurd (ht.mp hb) h1
    have h2b : matchHtml path = false := by
      cases hb : matchHtml path with
      | false => rfl
      | true => exact absurd (hh.mp hb) h2
    have h3b : matchImages path = true := by
      unfold matchImages
      exact decide_eq_true h3
    simp [clearWalkFn, h1b, h2b, h3b]
  · intro h1 h2 h3
    have h1b : matchTilde path = false := by
      cases hb : matchTilde path with
      | false => rfl
      | true => exact absurd (ht.mp hb) h1
    have h2b : matchHtml path = false := by
      cases hb : matchHtml path with
      | false => rfl
      | true => exact absurd (hh.mp hb) h2
    have h3b : matchImages path = false := by
      unfold matchImages
      exact decide_eq_false h3
    simp [clearWalkFn, h1b, h2b, h3b]

/-- C5 fails on the code: the path `public/xhtml` does not end with `.html`
and is removed all the same, since the dot of the pattern `.html$` stands for
any character. -/
theorem clear_removes_xhtml :
    ¬ ".html".toList <:+ "public/xhtml".toList ∧
    clearWalkFn "public/xhtml".toList none = .remove ∧
    clearWalkFn "public/foo.html".toList none = .remove ∧
    clearWalkFn "public/foo.html~".toList none = .untouched ∧
    clearWalkFn "public/examples/_resources/images".toList none = .removeAllSkipDir := by
  decide

/-- C6 fails on the code: a file without a blank line is not emptied, it is
returned as it is (here it has no tab either). -/
theorem source_without_blank_line_kept :
    ¬ ['\n', '\n'] <:+: "package main\n".toList ∧
    (ex "flood" 320 240).Source (.ok "package main\n".toList) =
      .ok "package main\n".toList ∧
    "package main\n".toList ≠ [] :=
  ⟨by decide, rfl, by decide⟩

/-- C6, amended: for a name other than `2048` and `blocks`, `Source` removes
the shortest prefix that ends with the first blank line and replaces every tab
by eight spaces; a file without a blank line has nothing removed and only its
tabs replaced. -/
theorem source_strips_header (e : Example) (b : GoString)
    (h2048 : e.Name ≠ "2048".toList) (hblocks : e.Name ≠ "blocks".toList) :
    (∀ p r : GoString, b = p ++ '\n' :: '\n' :: r → ¬ ['\n', '\n'] <:+: p ++ ['\n'] →
      e.Source (.ok b) =
        .ok (r.flatMap (fun c => if c = '\t' then eightSpaces else [c]))) ∧
    (¬ ['\n', '\n'] <:+: b →
      e.Source (.ok b) =
        .ok (b.flatMap (fun c => if c = '\t' then eightSpaces else [c]))) := by
  constructor
  · intro p r hb hp
    subst hb
    unfold Example.Source
    rw [if_neg h2048, if_neg hblocks]
    simp [stripHeader, afterBlankLine_first p r hp, expandTabs_eq_flatMap]
  · intro hb
    unfold Example.Source
    rw [if_neg h2048, if_neg hblocks]
    simp [stripHeader, afterBlankLine_none b hb, expandTabs_eq_flatMap]

/-- C6, amended, on a file with a header comment, a blank line and a tab. -/
theorem source_strips_header_witness :
    (ex "flood" 320 240).Name ≠ "2048".toList ∧
    (ex "flood" 320 240).Name ≠ "blocks".toList ∧
    (ex "flood" 320 240).Source (.ok "// c\n\npackage\n\n\tx".toList) =
      .ok ("package\n\n        x".toList) :=
  ⟨by decide, by decide,
    ((source_strips_header (ex "flood" 320 240) "// c\n\npackage\n\n\tx".toList
      (by decide) (by decide)).1 "// c".toList "package\n\n\tx".toList
      (by decide) (by decide)).trans rfl⟩

/-- C7: the steps attempted by `main` are the steps of the build sequence up
to and including the first failing one, and all of them when none fails; the
build ends `Aborted` with that first error or `Done`; the sequence has no
repeated step, so no step is attempted twice. -/
theorem main_fail_fast (oc : Step → Option String) :
    buildSequence.Nodup ∧
    (main oc).1 <+: buildSequence ∧
    (main oc).1.Nodup ∧
    ((∀ s ∈ buildSequence, oc s = none) → main oc = (buildSequence, .Done)) ∧
    (∀ (pre : List Step) (s : Step) (post : List Step) (err : String),
      buildSequence = pre ++ s :: post → (∀ x ∈ pre, oc x = none) → oc s = some err →
      main oc = (pre ++ [s], .Aborted err)) := by
  have hpre : (main oc).1 <+: buildSequence := by
    rw [main_eq_failFast]
    exact failFast_attempted_initial oc buildSequence
  refine ⟨buildSequence_nodup, hpre, hpre.sublist.nodup buildSequence_nodup, ?_, ?_⟩
  · intro h
    rw [main_eq_failFast]
    exact failFast_all_ok oc buildSequence h
  · intro pre s post err hS hp hs
    rw [main_eq_failFast, hS]
    exact failFast_first_error oc pre s post err hp hs

/-- C7, on a build in which compiling `flood`, the second example, fails. -/
theorem main_fail_fast_witness :
    main floodBuildFails =
      ([.Clear, .RenderHome, .ResetExamplesDir, .CopyResources,
        .RenderContent (ex "alphablending" 320 240), .Build (ex "alphablending" 320 240),
        .RenderFullPage (ex "alphablending" 320 240),
        .RenderContent (ex "flood" 320 240), .Build (ex "flood" 320 240)],
       .Aborted "exit status 1") :=
  (main_fail_fast floodBuildFails).2.2.2.2
    [.Clear, .RenderHome, .ResetExamplesDir, .CopyResources,
      .RenderContent (ex "alphablending" 320 240), .Build (ex "alphablending" 320 240),
      .RenderFullPage (ex "alphablending" 320 240),
      .RenderContent (ex "flood" 320 240)]
    (.Build (ex "flood" 320 240))
    (buildSequence.drop 9) "exit status 1" (by decide) (by decide) (by decide)

/-- C8: `Width` is `ScreenWidth` when that is not 0 and `ThumbWidth * 2` (the
multiplication of Go, which is the exact product when that fits an `int`)
otherwise; `Height` likewise. -/
theorem width_height_rule (e : Example) :
    (e.ScreenWidth ≠ 0 → e.Width = e.ScreenWidth) ∧
    (e.ScreenWidth = 0 → e.Width = mulInt e.ThumbWidth 2) ∧
    (e.ScreenHeight ≠ 0 → e.Height = e.ScreenHeight) ∧
    (e.ScreenHeight = 0 → e.Height = mulInt e.ThumbHeight 2) ∧
    (-(2 ^ 63) ≤ e.ThumbWidth * 2 → e.ThumbWidth * 2 < 2 ^ 63 →
      mulInt e.ThumbWidth 2 = e.ThumbWidth * 2) ∧
    (-(2 ^ 63) ≤ e.ThumbHeight * 2 → e.ThumbHeight * 2 < 2 ^ 63 →
      mulInt e.ThumbHeight 2 = e.ThumbHeight * 2) := by
  refine ⟨?_, ?_, ?_, ?_, ?_, ?_⟩
  · intro h; simp [Example.Width, h]
  · intro h; simp [Example.Width, h]
  · intro h; simp [Example.Height, h]
  · intro h; simp [Example.Height, h]
  · exact mulInt_exact _ _
  · exact mulInt_exact _ _

/-- C8, on a 100x50 thumbnail: without screen sizes the dimensions are
200x100, and with a screen width of 300 they are 300x100. -/
theorem width_height_rule_witness :
    (Example.mk [] 100 50 0 0).Width = 200 ∧ (Example.mk [] 100 50 0 0).Height = 100 ∧
    (Example.mk [] 100 50 300 0).Width = 300 ∧ (Example.mk [] 100 50 300 0).Height = 100 :=
  ⟨((width_height_rule ⟨[], 100, 50, 0, 0⟩).2.1 rfl).trans
      ((width_height_rule ⟨[], 100, 50, 0, 0⟩).2.2.2.2.1 (by decide) (by decide)),
    ((width_height_rule ⟨[], 100, 50, 0, 0⟩).2.2.2.1 rfl).trans
      ((width_height_rule ⟨[], 100, 50, 0, 0⟩).2.2.2.2.2 (by decide) (by decide)),
    (width_height_rule ⟨[], 100, 50, 300, 0⟩).1 (by decide),
    ((width_height_rule ⟨[], 100, 50, 300, 0⟩).2.2.2.1 rfl).trans
      ((width_height_rule ⟨[], 100, 50, 300, 0⟩).2.2.2.2.2 (by decide) (by decide))⟩

/-- C9 fails on the code: with positive thumbnail sizes, a negative screen
width is returned as it is, and a thumbnail width of `2 ^ 62` doubles to
`-(2 ^ 63)`. -/
theorem width_not_positive :
    (0 < (Example.mk [] 1 1 (-1) 0).ThumbWidth ∧ 0 < (Example.mk [] 1 1 (-1) 0).ThumbHeight ∧
      (Example.mk [] 1 1 (-1) 0).Width = -1) ∧
    (0 < (Example.mk [] (2 ^ 62) 1 0 0).ThumbWidth ∧
      0 < (Example.mk [] (2 ^ 62) 1 0 0).ThumbHeight ∧
      (Example.mk [] (2 ^ 62) 1 0 0).Width = -(2 ^ 63)) := by
  decide

/-- C9, amended: with positive thumbnail sizes below `2 ^ 62` and screen sizes
that are not negative, `Width` and `Height` are positive. -/
theorem width_height_positive (e : Example)
    (hw : 0 < e.ThumbWidth) (hw2 : e.ThumbWidth < 2 ^ 62)
    (hh : 0 < e.ThumbHeight) (hh2 : e.ThumbHeight < 2 ^ 62)
    (hsw : 0 ≤ e.ScreenWidth) (hsh : 0 ≤ e.ScreenHeight) :
    0 < e.Width ∧ 0 < e.Height := by
  constructor
  · unfold Example.Width
    split
    · rw [mulInt_exact _ _ (by linarith) (by linarith)]
      linarith
    · rename_i h
      exact lt_of_le_of_ne hsw (Ne.symm h)
  · unfold Example.Height
    split
    · rw [mulInt_exact _ _ (by linarith) (by linarith)]
      linarith
    · rename_i h
      exact lt_of_le_of_ne hsh (Ne.symm h)

/-- C9, amended, on the catalog entry `mandelbrot`. -/
theorem width_height_positive_witness :
    0 < (Example.mk "mandelbrot".toList 320 320 640 640).Width ∧
    0 < (Example.mk "mandelbrot".toList 320 320 640 640).Height :=
  width_height_positive ⟨"mandelbrot".toList, 320, 320, 640, 640⟩
    (by decide) (by decide) (by decide) (by decide) (by decide) (by decide)

/-- C10: the text that `comment` places between the wrappers is a subsequence
of its input, and it agrees with the input once every `-` and `>` is deleted
from both; an input without `-` and `>` is wrapped unchanged. -/
theorem comment_deletes_only_dash_gt (text : GoString) :
    comment text = commentOpen ++ commentBody text ++ commentClose ∧
    List.Sublist (commentBody text) text ∧
    (commentBody text).filter (fun c => c != '-' && c != '>') =
      text.filter (fun c => c != '-' && c != '>') ∧
    ((∀ c ∈ text, c ≠ '-' ∧ c ≠ '>') →
      comment text = commentOpen ++ text ++ commentClose) := by
  refine ⟨rfl, commentBody_sublist text, commentBody_filter text, ?_⟩
  intro h
  have hf : text.filter (fun c => c != '-' && c != '>') = text := by
    rw [List.filter_eq_self]
    intro c hc
    simpa using h c hc
  have hsub : List.Sublist text (commentBody text) := by
    have := List.filter_sublist (p := fun c => c != '-' && c != '>') (commentBody text)
    rwa [commentBody_filter, hf] at this
  have heq : commentBody text = text := (commentBody_sublist text).antisymm hsub
  simp [comment, heq]

/-- C10, on the text `hello world`. -/
theorem comment_deletes_only_dash_gt_witness :
    (∀ c ∈ "hello world".toList, c ≠ '-' ∧ c ≠ '>') ∧
    comment "hello world".toList = "<!--\nhello world\n-->".toList :=
  ⟨by decide,
    ((comment_deletes_only_dash_gt "hello world".toList).2.2.2 (by decide)).trans (by decide)⟩

end Gen
